import Mathlib

/-!
Verification of the Node Kayles Sprague-Grundy engine
(`src/Game/game_helpers.py`, `src/Game/main.py`).

A move removes a chosen node and all its current neighbors; the last player
to move wins.  The engine computes Grundy numbers of remaining-node states by
memoized recursion over `mex` of successor values, and enumerates winning
moves.  Nodes are embedded as natural numbers; a graph is its node set
together with the edge-pair set exactly as `SpragueGrundyAnalyzer.__init__`
stores them (`self.nodes`, `self.edges`); each stored edge may appear in one
orientation only, and `_get_neighbors` checks both orientations.  The memo
table of the Python class is pure caching of a deterministic function and is
not modelled; recursion is realised with explicit fuel (the fuel-irrelevance
lemma below shows any fuel at least the state size gives the same value,
which is exactly the recursion-depth bound of the source).
-/

namespace NodeKayles

/-- Graph as held by `SpragueGrundyAnalyzer`: node set plus edge-pair set. -/
structure Graph where
  nodes : Finset ℕ
  edges : Finset (ℕ × ℕ)
deriving DecidableEq

/-- Loop body of `mex` from `game_helpers.mex`: starting at `i`, step while
`i ∈ s`; the fuel argument bounds the loop and is irrelevant once large
enough (the loop always stops within `s.card + 1` steps). -/
def mexAux (s : Finset ℕ) : ℕ → ℕ → ℕ
  | i, 0 => i
  | i, fuel+1 => if i ∈ s then mexAux s (i+1) fuel else i

/-- `mex s`: smallest non-negative integer not in `s` (`game_helpers.mex`). -/
def mex (s : Finset ℕ) : ℕ := mexAux s 0 (s.card + 1)

/-- `SpragueGrundyAnalyzer._get_neighbors`: the nodes of `remaining` other
than `node` joined to it by a stored edge in either orientation. -/
def getNeighbors (G : Graph) (node : ℕ) (remaining : Finset ℕ) : Finset ℕ :=
  remaining.filter (fun n => n ≠ node ∧ ((node, n) ∈ G.edges ∨ (n, node) ∈ G.edges))

/-- Successor-state computation shared by `_get_next_states` and
`get_winning_moves`: `new_state = remaining - {node} - neighbors`. -/
def applyMove (G : Graph) (S : Finset ℕ) (node : ℕ) : Finset ℕ :=
  (S \ {node}) \ getNeighbors G node S

/-- `SpragueGrundyAnalyzer._get_next_states`, as the set of successor states. -/
def nextStates (G : Graph) (S : Finset ℕ) : Finset (Finset ℕ) :=
  S.image (applyMove G S)

/-- Body of `SpragueGrundyAnalyzer.grundy` with explicit recursion fuel:
empty state is 0, otherwise `mex` of the Grundy values of all successor
states.  Fuel stands for the recursion-depth budget; any fuel of at least
the state size yields the same value (`grundyAux_congr`). -/
def grundyAux (G : Graph) : ℕ → Finset ℕ → ℕ
  | 0, _ => 0
  | fuel+1, S =>
    if S = ∅ then 0
    else mex (S.image (fun n => grundyAux G fuel (applyMove G S n)))

/-- `SpragueGrundyAnalyzer.grundy`. -/
def grundy (G : Graph) (S : Finset ℕ) : ℕ := grundyAux G S.card S

/-- `SpragueGrundyAnalyzer.get_winning_moves`, as the set of returned nodes:
empty when the position is a P-position, otherwise the nodes whose move
lands on a Grundy-0 state. -/
def getWinningMoves (G : Graph) (S : Finset ℕ) : Finset ℕ :=
  if grundy G S = 0 then ∅
  else S.filter (fun n => grundy G (applyMove G S n) = 0)

/-- Neighbors of a node in the whole graph, as `G.neighbors(node)` in the
interactive loop: the graph nodes joined to `node` by a stored edge in
either orientation. -/
def graphNeighbors (H : Graph) (node : ℕ) : Finset ℕ :=
  H.nodes.filter (fun m => (node, m) ∈ H.edges ∨ (m, node) ∈ H.edges)

/-- `remove_node_and_neighbors` from `game_helpers.py`: if the node is
absent, report failure and leave the graph unchanged; otherwise remove the
node and all its neighbors (and the incident edges, as networkx node removal
does) and report success.  The Boolean is the Python return value. -/
def removeNodeAndNeighbors (H : Graph) (node : ℕ) : Bool × Graph :=
  if node ∈ H.nodes then
    let removed : Finset ℕ := insert node (graphNeighbors H node)
    (true, ⟨H.nodes \ removed,
            H.edges.filter (fun e => e.1 ∉ removed ∧ e.2 ∉ removed)⟩)
  else (false, H)

/-- Induced subgraph on a node subset, as `G.subgraph(comp_nodes).copy()`
used by `analyze_with_xor`: the nodes of `G` lying in `S` and the stored
edges with both endpoints in `S`. -/
def inducedSubgraph (G : Graph) (S : Finset ℕ) : Graph :=
  ⟨G.nodes ∩ S, G.edges.filter (fun e => e.1 ∈ S ∧ e.2 ∈ S)⟩

/-- Modelled from the library call `networkx.path_graph(n)` used by
`get_path_grundy` (the helper itself is in `src/`, the graph constructor is
library code): nodes `0, …, n-1` and edges `(i, i+1)`. -/
def pathGraph (n : ℕ) : Graph :=
  ⟨Finset.range n, (Finset.range (n - 1)).image (fun i => (i, i + 1))⟩

/-- `get_path_grundy` entry for one path size: the Grundy number of the
full node set of the path graph. -/
def getPathGrundy (n : ℕ) : ℕ := grundy (pathGraph n) (pathGraph n).nodes

/-! Component decomposer.  `analyze_with_xor` delegates to the library call
`networkx.connected_components(G)`; following the spec (§4.3), which
describes it as reachability flood-fill following graph edges restricted to
the state, we model it as iterated neighbor expansion.  Adjacency within a
state is exactly membership in `_get_neighbors`. -/

/-- Adjacency inside a state: both endpoints in the state, distinct, joined
by a stored edge in either orientation. -/
def Adj (G : Graph) (S : Finset ℕ) (a b : ℕ) : Prop :=
  a ∈ S ∧ b ∈ getNeighbors G a S

instance (G : Graph) (S : Finset ℕ) (a b : ℕ) : Decidable (Adj G S a b) := by
  unfold Adj; infer_instance

/-- Reachability within a state: reflexive-transitive closure of `Adj`. -/
def Reach (G : Graph) (S : Finset ℕ) : ℕ → ℕ → Prop :=
  Relation.ReflTransGen (Adj G S)

/-- One flood-fill round: add every state node adjacent to the frontier. -/
def expandStep (G : Graph) (S : Finset ℕ) (T : Finset ℕ) : Finset ℕ :=
  T ∪ S.filter (fun b => ∃ a ∈ T, Adj G S a b)

/-- Iterated flood fill. -/
def floodAux (G : Graph) (S : Finset ℕ) : ℕ → Finset ℕ → Finset ℕ
  | 0, T => T
  | k+1, T => floodAux G S k (expandStep G S T)

/-- Connected component of a node inside a state: flood fill from the node,
run for `S.card` rounds (enough to reach the fixed point). -/
def componentOf (G : Graph) (S : Finset ℕ) (v : ℕ) : Finset ℕ :=
  floodAux G S S.card {v}

/-- The set of connected components of the induced subgraph on a state. -/
def components (G : Graph) (S : Finset ℕ) : Finset (Finset ℕ) :=
  S.image (componentOf G S)

instance : Std.Commutative (fun a b : ℕ => a ^^^ b) := ⟨Nat.xor_comm⟩

instance : Std.Associative (fun a b : ℕ => a ^^^ b) := ⟨Nat.xor_assoc⟩

/-- `analyze_with_xor`: compute the components of the whole graph, run a
fresh analyzer on each induced subgraph, and xor the resulting values. -/
def analyzeWithXor (G : Graph) : ℕ :=
  (components G G.nodes).fold (fun a b : ℕ => a ^^^ b) 0
    (fun C => grundy (inducedSubgraph G C) C)

/-- States on which the evaluator runs its generic mex search when started
from a given state: every nonempty state visited by the recursion of
`SpragueGrundyAnalyzer.grundy` (each such state is expanded into its full
move list exactly once and cached; memoization changes how often a state is
revisited, never whether it is expanded). -/
def searchedAux (G : Graph) : ℕ → Finset ℕ → Finset (Finset ℕ)
  | 0, _ => ∅
  | fuel+1, S =>
    if S = ∅ then ∅
    else insert S (S.biUnion (fun n => searchedAux G fuel (applyMove G S n)))

def searched (G : Graph) (S : Finset ℕ) : Finset (Finset ℕ) :=
  searchedAux G S.card S

/-- Modelled from the spec: §4.4 step 3 describes a decomposition fast path
(absent from `src/Game/game_helpers.py`) in which a state with more than one
connected component is evaluated as the xor over its components, recursing
into the components instead of running the generic search on the whole
state.  This is the set of generically mex-searched states under that
description. -/
def searchedSpecAux (G : Graph) : ℕ → Finset ℕ → Finset (Finset ℕ)
  | 0, _ => ∅
  | fuel+1, S =>
    if S = ∅ then ∅
    else if 2 ≤ (components G S).card then
      (components G S).biUnion (fun C => searchedSpecAux G fuel C)
    else insert S (S.biUnion (fun n => searchedSpecAux G fuel (applyMove G S n)))

def searchedSpec (G : Graph) (S : Finset ℕ) : Finset (Finset ℕ) :=
  searchedSpecAux G S.card S

/-- Example graph: a single edge 0-1 (the path P2). -/
def singleEdgeGraph : Graph := ⟨{0, 1}, {(0, 1)}⟩

/-- Example graph: two disjoint edges 0-1 and 2-3, the spec's end-to-end
validation case for the disjoint-sum fast path. -/
def twoEdgesGraph : Graph := ⟨{0, 1, 2, 3}, {(0, 1), (2, 3)}⟩

lemma mexAux_spec (s : Finset ℕ) :
    ∀ fuel i, (∃ j, i ≤ j ∧ j < i + fuel ∧ j ∉ s) →
      mexAux s i fuel ∉ s ∧ i ≤ mexAux s i fuel ∧
        ∀ k, i ≤ k → k < mexAux s i fuel → k ∈ s := by
  intro fuel
  induction fuel with
  | zero =>
    intro i ⟨j, hij, hlt, _⟩
    omega
  | succ fuel ih =>
    intro i ⟨j, hij, hlt, hj⟩
    by_cases hi : i ∈ s
    · have hji : i + 1 ≤ j := by
        rcases Nat.eq_or_lt_of_le hij with h | h
        · exact absurd hi (h ▸ hj)
        · exact h
      have ⟨h1, h2, h3⟩ := ih (i+1) ⟨j, hji, by omega, hj⟩
      refine ⟨by simpa [mexAux, hi] using h1, by simp [mexAux, hi]; omega, ?_⟩
      intro k hik hk
      rcases Nat.eq_or_lt_of_le hik with h | h
      · exact h ▸ hi
      · exact h3 k h (by simpa [mexAux, hi] using hk)
    · refine ⟨by simp [mexAux, hi, hj], by simp [mexAux, hi], ?_⟩
      intro k hik hk
      simp [mexAux, hi] at hk
      omega

lemma exists_not_mem_of_card (s : Finset ℕ) :
    ∃ j, 0 ≤ j ∧ j < 0 + (s.card + 1) ∧ j ∉ s := by
  by_contra h
  push_neg at h
  have hsub : Finset.range (s.card + 1) ⊆ s := by
    intro j hj
    exact h j (Nat.zero_le _) (by simpa using Finset.mem_range.mp hj)
  have := Finset.card_le_card hsub
  simp [Finset.card_range] at this

lemma mex_not_mem (s : Finset ℕ) : mex s ∉ s :=
  (mexAux_spec s (s.card + 1) 0 (exists_not_mem_of_card s)).1

lemma mem_of_lt_mex (s : Finset ℕ) {k : ℕ} (hk : k < mex s) : k ∈ s :=
  (mexAux_spec s (s.card + 1) 0 (exists_not_mem_of_card s)).2.2 k (Nat.zero_le _) hk

/-- The two characterising properties determine `mex` uniquely. -/
lemma mex_eq_of (s : Finset ℕ) {m : ℕ} (hm : m ∉ s) (hb : ∀ k, k < m → k ∈ s) :
    mex s = m := by
  rcases Nat.lt_trichotomy (mex s) m with h | h | h
  · exact absurd (hb _ h) (mex_not_mem s)
  · exact h
  · exact absurd (mem_of_lt_mex s h) hm

lemma mex_pos_iff (s : Finset ℕ) : 0 < mex s ↔ 0 ∈ s := by
  constructor
  · exact fun h => mem_of_lt_mex s h
  · intro h0
    rcases Nat.eq_zero_or_pos (mex s) with h | h
    · exact absurd (h ▸ h0) (mex_not_mem s)
    · exact h

lemma getNeighbors_subset (G : Graph) (node : ℕ) (S : Finset ℕ) :
    getNeighbors G node S ⊆ S := Finset.filter_subset _ _

lemma applyMove_subset (G : Graph) (S : Finset ℕ) (n : ℕ) :
    applyMove G S n ⊆ S :=
  (Finset.sdiff_subset).trans Finset.sdiff_subset

lemma not_mem_applyMove (G : Graph) (S : Finset ℕ) (n : ℕ) :
    n ∉ applyMove G S n := by
  simp [applyMove]

lemma applyMove_ssubset (G : Graph) {S : Finset ℕ} {n : ℕ} (hn : n ∈ S) :
    applyMove G S n ⊂ S :=
  Finset.ssubset_iff_of_subset (applyMove_subset G S n) |>.mpr
    ⟨n, hn, not_mem_applyMove G S n⟩

lemma applyMove_card_lt (G : Graph) {S : Finset ℕ} {n : ℕ} (hn : n ∈ S) :
    (applyMove G S n).card < S.card :=
  Finset.card_lt_card (applyMove_ssubset G hn)

lemma grundyAux_congr (G : Graph) :
    ∀ f1 f2 S, S.card ≤ f1 → S.card ≤ f2 → grundyAux G f1 S = grundyAux G f2 S := by
  intro f1
  induction f1 with
  | zero =>
    intro f2 S h1 _
    have hS : S = ∅ := Finset.card_eq_zero.mp (Nat.le_zero.mp h1)
    cases f2 with
    | zero => rfl
    | succ f2 => simp [grundyAux, hS]
  | succ f1 ih =>
    intro f2 S h1 h2
    cases f2 with
    | zero =>
      have hS : S = ∅ := Finset.card_eq_zero.mp (Nat.le_zero.mp h2)
      simp [grundyAux, hS]
    | succ f2 =>
      by_cases hS : S = ∅
      · simp [grundyAux, hS]
      · simp only [grundyAux, hS, if_false]
        congr 1
        apply Finset.image_congr
        intro n hn
        have hlt : (applyMove G S n).card < S.card :=
          applyMove_card_lt G (by simpa using hn)
        exact ih f2 (applyMove G S n) (by omega) (by omega)

lemma grundy_empty (G : Graph) : grundy G ∅ = 0 := rfl

/-- Defining equation of `grundy` on a nonempty state: `mex` over the set of
successor Grundy values, one per node of the state. -/
lemma grundy_spec (G : Graph) {S : Finset ℕ} (hS : S.Nonempty) :
    grundy G S = mex (S.image (fun n => grundy G (applyMove G S n))) := by
  obtain ⟨m, hm⟩ : ∃ m, S.card = m + 1 :=
    ⟨S.card - 1, by have := Finset.card_pos.mpr hS; omega⟩
  have hne : S ≠ ∅ := Finset.nonempty_iff_ne_empty.mp hS
  calc grundy G S = grundyAux G (m+1) S := by rw [grundy, hm]
    _ = mex (S.image (fun n => grundyAux G m (applyMove G S n))) := by
        simp [grundyAux, hne]
    _ = mex (S.image (fun n => grundy G (applyMove G S n))) := by
        congr 1
        apply Finset.image_congr
        intro n hn
        have hlt : (applyMove G S n).card < S.card :=
          applyMove_card_lt G (by simpa using hn)
        exact grundyAux_congr G m _ _ (by omega) (le_refl _)

/-- Grundy numbers only depend on the stored edges between pairs of nodes
inside the state: states only shrink along the recursion, so agreement of
two graphs on pairs within `S` forces equal Grundy values on `S`. -/
lemma grundy_congr (G G2 : Graph) :
    ∀ (N : ℕ) (S : Finset ℕ), S.card = N →
      (∀ a b, a ∈ S → b ∈ S → ((a, b) ∈ G.edges ↔ (a, b) ∈ G2.edges)) →
      grundy G S = grundy G2 S := by
  intro N
  induction N using Nat.strong_induction_on with
  | _ N ih =>
    intro S hcard hagree
    rcases Finset.eq_empty_or_nonempty S with hS | hS
    · simp [hS, grundy_empty]
    · have hnbrs : ∀ n ∈ S, getNeighbors G n S = getNeighbors G2 n S := by
        intro n hn
        apply Finset.filter_congr
        intro m hm
        simp only [eq_iff_iff, and_congr_right_iff]
        intro _
        rw [hagree n m hn hm, hagree m n hm hn]
      have hmoves : ∀ n ∈ S, applyMove G S n = applyMove G2 S n := by
        intro n hn
        simp [applyMove, hnbrs n hn]
      rw [grundy_spec G hS, grundy_spec G2 hS]
      congr 1
      apply Finset.image_congr
      intro n hn
      show grundy G (applyMove G S n) = grundy G2 (applyMove G2 S n)
      rw [hmoves n hn]
      exact ih (applyMove G2 S n).card
        (by rw [← hcard, ← hmoves n hn]; exact applyMove_card_lt G hn)
        (applyMove G2 S n) rfl
        (fun a b ha hb =>
          hagree a b (applyMove_subset G2 S n ha) (applyMove_subset G2 S n hb))

lemma adj_symm {G : Graph} {S : Finset ℕ} {a b : ℕ} (h : Adj G S a b) :
    Adj G S b a := by
  unfold Adj at h ⊢
  obtain ⟨ha, hb⟩ := h
  simp only [getNeighbors, Finset.mem_filter] at hb ⊢
  exact ⟨hb.1, ha, Ne.symm hb.2.1, hb.2.2.symm⟩

lemma Adj.mem_left {G : Graph} {S : Finset ℕ} {a b : ℕ} (h : Adj G S a b) :
    a ∈ S := h.1

lemma Adj.mem_right {G : Graph} {S : Finset ℕ} {a b : ℕ} (h : Adj G S a b) :
    b ∈ S := getNeighbors_subset G a S h.2

lemma reach_symm {G : Graph} {S : Finset ℕ} {a b : ℕ} (h : Reach G S a b) :
    Reach G S b a :=
  Relation.ReflTransGen.symmetric (fun _ _ hab => adj_symm hab) h

lemma subset_expandStep (G : Graph) (S T : Finset ℕ) : T ⊆ expandStep G S T :=
  Finset.subset_union_left

lemma expandStep_subset (G : Graph) {S T : Finset ℕ} (hT : T ⊆ S) :
    expandStep G S T ⊆ S :=
  Finset.union_subset hT (Finset.filter_subset _ _)

lemma subset_floodAux (G : Graph) (S : Finset ℕ) :
    ∀ k T, T ⊆ floodAux G S k T := by
  intro k
  induction k with
  | zero => intro T; exact le_refl T
  | succ k ih =>
    intro T
    exact (subset_expandStep G S T).trans (ih (expandStep G S T))

lemma floodAux_subset (G : Graph) (S : Finset ℕ) :
    ∀ k T, T ⊆ S → floodAux G S k T ⊆ S := by
  intro k
  induction k with
  | zero => intro T hT; exact hT
  | succ k ih => intro T hT; exact ih _ (expandStep_subset G hT)

lemma floodAux_fix (G : Graph) (S : Finset ℕ) :
    ∀ k T, expandStep G S T = T → floodAux G S k T = T := by
  intro k
  induction k with
  | zero => intro T _; rfl
  | succ k ih => intro T hT; simp [floodAux, hT, ih T hT]

/-- After enough rounds the flood reaches a fixed point of `expandStep`. -/
lemma floodAux_reaches_fix (G : Graph) (S : Finset ℕ) :
    ∀ k T, T ⊆ S → S.card ≤ T.card + k →
      expandStep G S (floodAux G S k T) = floodAux G S k T := by
  intro k
  induction k with
  | zero =>
    intro T hT hcard
    have hTS : T = S := Finset.eq_of_subset_of_card_le hT (by omega)
    subst hTS
    simp only [floodAux]
    exact Finset.union_eq_left.mpr (Finset.filter_subset _ _)
  | succ k ih =>
    intro T hT hcard
    by_cases hfix : expandStep G S T = T
    · simp only [floodAux, hfix]
      rw [floodAux_fix G S k T hfix]
      exact hfix
    · have hgrow : T.card < (expandStep G S T).card :=
        Finset.card_lt_card (Finset.ssubset_iff_of_subset
          (subset_expandStep G S T) |>.mpr (by
            rcases Finset.exists_of_ssubset
              (lt_of_le_of_ne (subset_expandStep G S T) (Ne.symm hfix)) with ⟨x, hx1, hx2⟩
            exact ⟨x, hx1, hx2⟩))
      exact ih (expandStep G S T) (expandStep_subset G hT) (by omega)

lemma expandStep_componentOf (G : Graph) (S : Finset ℕ) {v : ℕ} (hv : v ∈ S) :
    expandStep G S (componentOf G S v) = componentOf G S v :=
  floodAux_reaches_fix G S S.card {v} (Finset.singleton_subset_iff.mpr hv)
    (by simp)

lemma mem_componentOf_self (G : Graph) (S : Finset ℕ) (v : ℕ) :
    v ∈ componentOf G S v :=
  subset_floodAux G S S.card {v} (Finset.mem_singleton_self v)

lemma componentOf_subset (G : Graph) (S : Finset ℕ) {v : ℕ} (hv : v ∈ S) :
    componentOf G S v ⊆ S :=
  floodAux_subset G S S.card {v} (Finset.singleton_subset_iff.mpr hv)

/-- Everything the flood collects is reachable from the seed. -/
lemma floodAux_mem_reach (G : Graph) (S : Finset ℕ) (v : ℕ) :
    ∀ k T, (∀ x ∈ T, Reach G S v x) → ∀ x ∈ floodAux G S k T, Reach G S v x := by
  intro k
  induction k with
  | zero => intro T hT; exact hT
  | succ k ih =>
    intro T hT
    apply ih
    intro x hx
    rcases Finset.mem_union.mp hx with hx | hx
    · exact hT x hx
    · rw [Finset.mem_filter] at hx
      obtain ⟨-, a, ha, hadj⟩ := hx
      exact Relation.ReflTransGen.tail (hT a ha) hadj

lemma mem_componentOf_reach (G : Graph) (S : Finset ℕ) {v x : ℕ}
    (hx : x ∈ componentOf G S v) : Reach G S v x :=
  floodAux_mem_reach G S v S.card {v}
    (fun y hy => by simp at hy; subst hy; exact Relation.ReflTransGen.refl) x hx

/-- A fixed point of `expandStep` containing the seed absorbs everything
reachable from the seed. -/
lemma reach_mem_componentOf (G : Graph) (S : Finset ℕ) {v x : ℕ} (hv : v ∈ S)
    (hr : Reach G S v x) : x ∈ componentOf G S v := by
  induction hr with
  | refl => exact mem_componentOf_self G S v
  | tail hvc hadj ih =>
    have hfix := expandStep_componentOf G S hv
    rw [← hfix]
    apply Finset.mem_union_right
    rw [Finset.mem_filter]
    exact ⟨hadj.mem_right, _, ih, hadj⟩

/-- The flood fill computes exactly the reachability class of the seed. -/
lemma mem_componentOf_iff (G : Graph) (S : Finset ℕ) {v : ℕ} (hv : v ∈ S)
    {x : ℕ} : x ∈ componentOf G S v ↔ x ∈ S ∧ Reach G S v x :=
  ⟨fun hx => ⟨componentOf_subset G S hv hx, mem_componentOf_reach G S hx⟩,
   fun ⟨_, hr⟩ => reach_mem_componentOf G S hv hr⟩

lemma componentOf_eq_of_reach (G : Graph) (S : Finset ℕ) {u v : ℕ}
    (hu : u ∈ S) (hv : v ∈ S) (hr : Reach G S u v) :
    componentOf G S u = componentOf G S v := by
  ext x
  rw [mem_componentOf_iff G S hu, mem_componentOf_iff G S hv]
  constructor
  · intro ⟨hxS, h⟩
    exact ⟨hxS, Relation.ReflTransGen.trans (reach_symm hr) h⟩
  · intro ⟨hxS, h⟩
    exact ⟨hxS, Relation.ReflTransGen.trans hr h⟩

/-- Two components sharing a node coincide. -/
lemma componentOf_eq_of_mem (G : Graph) (S : Finset ℕ) {u v x : ℕ}
    (hu : u ∈ S) (hv : v ∈ S) (hxu : x ∈ componentOf G S u)
    (hxv : x ∈ componentOf G S v) : componentOf G S u = componentOf G S v := by
  have h1 := mem_componentOf_reach G S hxu
  have h2 := mem_componentOf_reach G S hxv
  exact componentOf_eq_of_reach G S hu hv (Relation.ReflTransGen.trans h1 (reach_symm h2))

/-- The nim-sum step of the Sprague-Grundy disjoint-sum law: moving in one
summand shifts its option values by the xor of the other summand, and the
mex of the combined option values is the xor of the two mex values. -/
lemma mex_union_xor (VA VB : Finset ℕ) :
    mex ((VA.image (fun x => x ^^^ mex VB)) ∪ (VB.image (fun y => mex VA ^^^ y)))
      = mex VA ^^^ mex VB := by
  apply mex_eq_of
  · intro hmem
    rcases Finset.mem_union.mp hmem with h | h
    · obtain ⟨x, hx, hEq⟩ := Finset.mem_image.mp h
      have hxa : x = mex VA := by
        have := congrArg (fun t => t ^^^ mex VB) hEq
        simpa [Nat.xor_assoc, Nat.xor_self] using this
      exact mex_not_mem VA (hxa ▸ hx)
    · obtain ⟨y, hy, hEq⟩ := Finset.mem_image.mp h
      have hyb : y = mex VB := by
        have := congrArg (fun t => mex VA ^^^ t) hEq
        simpa [← Nat.xor_assoc, Nat.xor_self] using this
      exact mex_not_mem VB (hyb ▸ hy)
  · intro k hk
    rcases Nat.lt_xor_cases hk with h | h
    · apply Finset.mem_union_left
      exact Finset.mem_image.mpr ⟨k ^^^ mex VB, mem_of_lt_mex VA h,
        by simp [Nat.xor_assoc, Nat.xor_self]⟩
    · apply Finset.mem_union_right
      refine Finset.mem_image.mpr ⟨k ^^^ mex VA, mem_of_lt_mex VB h, ?_⟩
      show mex VA ^^^ (k ^^^ mex VA) = k
      rw [Nat.xor_comm k (mex VA), ← Nat.xor_assoc, Nat.xor_self, Nat.zero_xor]

lemma getNeighbors_union_left (G : Graph) {A B : Finset ℕ}
    (hsep : ∀ a ∈ A, ∀ b ∈ B, (a, b) ∉ G.edges ∧ (b, a) ∉ G.edges)
    {n : ℕ} (hn : n ∈ A) :
    getNeighbors G n (A ∪ B) = getNeighbors G n A := by
  unfold getNeighbors
  rw [Finset.filter_union]
  have hBempty :
      B.filter (fun m => m ≠ n ∧ ((n, m) ∈ G.edges ∨ (m, n) ∈ G.edges)) = ∅ := by
    rw [Finset.filter_eq_empty_iff]
    intro b hb
    have hs := hsep n hn b hb
    simp [hs.1, hs.2]
  rw [hBempty, Finset.union_empty]

lemma getNeighbors_union_right (G : Graph) {A B : Finset ℕ}
    (hsep : ∀ a ∈ A, ∀ b ∈ B, (a, b) ∉ G.edges ∧ (b, a) ∉ G.edges)
    {n : ℕ} (hn : n ∈ B) :
    getNeighbors G n (A ∪ B) = getNeighbors G n B := by
  unfold getNeighbors
  rw [Finset.filter_union]
  have hAempty :
      A.filter (fun m => m ≠ n ∧ ((n, m) ∈ G.edges ∨ (m, n) ∈ G.edges)) = ∅ := by
    rw [Finset.filter_eq_empty_iff]
    intro a ha
    have hs := hsep a ha n hn
    simp [hs.1, hs.2]
  rw [hAempty, Finset.empty_union]

lemma applyMove_union_left (G : Graph) {A B : Finset ℕ} (hd : Disjoint A B)
    (hsep : ∀ a ∈ A, ∀ b ∈ B, (a, b) ∉ G.edges ∧ (b, a) ∉ G.edges)
    {n : ℕ} (hn : n ∈ A) :
    applyMove G (A ∪ B) n = applyMove G A n ∪ B := by
  unfold applyMove
  rw [getNeighbors_union_left G hsep hn]
  have hnB : n ∉ B := Finset.disjoint_left.mp hd hn
  have hNB : ∀ x ∈ B, x ∉ getNeighbors G n A := fun x hx hmem =>
    Finset.disjoint_left.mp hd (getNeighbors_subset G n A hmem) hx
  ext x
  simp only [Finset.mem_sdiff, Finset.mem_union, Finset.mem_singleton]
  constructor
  · rintro ⟨⟨hx | hx, hxn⟩, hxN⟩
    · exact Or.inl ⟨⟨hx, hxn⟩, hxN⟩
    · exact Or.inr hx
  · rintro (⟨⟨hx, hxn⟩, hxN⟩ | hx)
    · exact ⟨⟨Or.inl hx, hxn⟩, hxN⟩
    · exact ⟨⟨Or.inr hx, fun h => hnB (h ▸ hx)⟩, hNB x hx⟩

lemma applyMove_union_right (G : Graph) {A B : Finset ℕ} (hd : Disjoint A B)
    (hsep : ∀ a ∈ A, ∀ b ∈ B, (a, b) ∉ G.edges ∧ (b, a) ∉ G.edges)
    {n : ℕ} (hn : n ∈ B) :
    applyMove G (A ∪ B) n = A ∪ applyMove G B n := by
  unfold applyMove
  rw [getNeighbors_union_right G hsep hn]
  have hnA : n ∉ A := Finset.disjoint_right.mp hd hn
  have hNA : ∀ x ∈ A, x ∉ getNeighbors G n B := fun x hx hmem =>
    Finset.disjoint_right.mp hd (getNeighbors_subset G n B hmem) hx
  ext x
  simp only [Finset.mem_sdiff, Finset.mem_union, Finset.mem_singleton]
  constructor
  · rintro ⟨⟨hx | hx, hxn⟩, hxN⟩
    · exact Or.inl hx
    · exact Or.inr ⟨⟨hx, hxn⟩, hxN⟩
  · rintro (hx | ⟨⟨hx, hxn⟩, hxN⟩)
    · exact ⟨⟨Or.inl hx, fun h => hnA (h ▸ hx)⟩, hNA x hx⟩
    · exact ⟨⟨Or.inr hx, hxn⟩, hxN⟩

/-- Sprague-Grundy disjoint-sum law for the engine: on a state split into
two halves with no stored edge between them, the Grundy number is the xor of
the Grundy numbers of the halves. -/
lemma grundy_union_xor (G : Graph) :
    ∀ (N : ℕ) (A B : Finset ℕ), (A ∪ B).card = N → Disjoint A B →
      (∀ a ∈ A, ∀ b ∈ B, (a, b) ∉ G.edges ∧ (b, a) ∉ G.edges) →
      grundy G (A ∪ B) = grundy G A ^^^ grundy G B := by
  intro N
  induction N using Nat.strong_induction_on with
  | _ N ih =>
  intro A B hcard hd hsep
  rcases Finset.eq_empty_or_nonempty A with hA | hA
  · simp [hA, grundy_empty]
  rcases Finset.eq_empty_or_nonempty B with hB | hB
  · simp [hB, grundy_empty]
  obtain ⟨a0, ha0⟩ := hA
  have hABne : (A ∪ B).Nonempty := ⟨a0, Finset.mem_union_left _ ha0⟩
  have hgA := grundy_spec G (⟨a0, ha0⟩ : A.Nonempty)
  have hgB := grundy_spec G hB
  have hLA : A.image (fun n => grundy G (applyMove G (A ∪ B) n))
      = (A.image (fun n => grundy G (applyMove G A n))).image
          (fun x => x ^^^ mex (B.image (fun n => grundy G (applyMove G B n)))) := by
    rw [Finset.image_image]
    apply Finset.image_congr
    intro n hn
    have hnA : n ∈ A := Finset.mem_coe.mp hn
    show grundy G (applyMove G (A ∪ B) n)
        = grundy G (applyMove G A n) ^^^ mex (B.image (fun n => grundy G (applyMove G B n)))
    rw [applyMove_union_left G hd hsep hnA, ← hgB]
    have hsub : applyMove G A n ∪ B ⊆ A ∪ B :=
      Finset.union_subset_union (applyMove_subset G A n) (le_refl B)
    have hnotin : n ∉ applyMove G A n ∪ B := by
      rw [Finset.mem_union]
      exact fun h => h.elim (not_mem_applyMove G A n) (Finset.disjoint_left.mp hd hnA)
    have hlt : (applyMove G A n ∪ B).card < N := by
      rw [← hcard]
      exact Finset.card_lt_card ((Finset.ssubset_iff_of_subset hsub).mpr
        ⟨n, Finset.mem_union_left _ hnA, hnotin⟩)
    exact ih _ hlt (applyMove G A n) B rfl
      (Finset.disjoint_of_subset_left (applyMove_subset G A n) hd)
      (fun a ha b hb => hsep a (applyMove_subset G A n ha) b hb)
  have hRB : B.image (fun n => grundy G (applyMove G (A ∪ B) n))
      = (B.image (fun n => grundy G (applyMove G B n))).image
          (fun y => mex (A.image (fun n => grundy G (applyMove G A n))) ^^^ y) := by
    rw [Finset.image_image]
    apply Finset.image_congr
    intro n hn
    have hnB : n ∈ B := Finset.mem_coe.mp hn
    show grundy G (applyMove G (A ∪ B) n)
        = mex (A.image (fun n => grundy G (applyMove G A n))) ^^^ grundy G (applyMove G B n)
    rw [applyMove_union_right G hd hsep hnB, ← hgA]
    have hsub : A ∪ applyMove G B n ⊆ A ∪ B :=
      Finset.union_subset_union (le_refl A) (applyMove_subset G B n)
    have hnotin : n ∉ A ∪ applyMove G B n := by
      rw [Finset.mem_union]
      exact fun h => h.elim (Finset.disjoint_right.mp hd hnB) (not_mem_applyMove G B n)
    have hlt : (A ∪ applyMove G B n).card < N := by
      rw [← hcard]
      exact Finset.card_lt_card ((Finset.ssubset_iff_of_subset hsub).mpr
        ⟨n, Finset.mem_union_right _ hnB, hnotin⟩)
    exact ih _ hlt A (applyMove G B n) rfl
      (Finset.disjoint_of_subset_right (applyMove_subset G B n) hd)
      (fun a ha b hb => hsep a ha b (applyMove_subset G B n hb))
  rw [grundy_spec G hABne, Finset.image_union, hLA, hRB, hgA, hgB]
  exact mex_union_xor _ _

lemma componentOf_subset_of_mem_components (G : Graph) (S : Finset ℕ)
    {C : Finset ℕ} (hC : C ∈ components G S) : C ⊆ S := by
  obtain ⟨v, hv, hvC⟩ := Finset.mem_image.mp hC
  exact hvC ▸ componentOf_subset G S hv

lemma biUnion_components (G : Graph) (S : Finset ℕ) :
    (components G S).biUnion id = S := by
  ext x
  rw [Finset.mem_biUnion]
  constructor
  · intro ⟨C, hC, hxC⟩
    exact componentOf_subset_of_mem_components G S hC hxC
  · intro hx
    exact ⟨componentOf G S x, Finset.mem_image_of_mem _ hx,
      mem_componentOf_self G S x⟩

lemma components_disjoint (G : Graph) (S : Finset ℕ) {C D : Finset ℕ}
    (hC : C ∈ components G S) (hD : D ∈ components G S) (hne : C ≠ D) :
    Disjoint C D := by
  obtain ⟨u, hu, huC⟩ := Finset.mem_image.mp hC
  obtain ⟨v, hv, hvD⟩ := Finset.mem_image.mp hD
  rw [Finset.disjoint_left]
  intro x hxC hxD
  exact hne (huC ▸ hvD ▸
    componentOf_eq_of_mem G S hu hv (huC ▸ hxC) (hvD ▸ hxD))

lemma components_no_cross_edges (G : Graph) (S : Finset ℕ) {C D : Finset ℕ}
    (hC : C ∈ components G S) (hD : D ∈ components G S) (hne : C ≠ D) :
    ∀ a ∈ C, ∀ b ∈ D, (a, b) ∉ G.edges ∧ (b, a) ∉ G.edges := by
  obtain ⟨u, hu, huC⟩ := Finset.mem_image.mp hC
  obtain ⟨v, hv, hvD⟩ := Finset.mem_image.mp hD
  intro a ha b hb
  have haS : a ∈ S := componentOf_subset_of_mem_components G S hC ha
  have hbS : b ∈ S := componentOf_subset_of_mem_components G S hD hb
  have hab : a ≠ b := by
    intro h
    exact hne (huC ▸ hvD ▸
      componentOf_eq_of_mem G S hu hv (huC ▸ ha) (hvD ▸ h ▸ hb))
  have key : ∀ e : Prop, ((a, b) ∈ G.edges ∨ (b, a) ∈ G.edges) → False := by
    intro _ hedge
    have hadj : Adj G S a b := by
      unfold Adj
      refine ⟨haS, ?_⟩
      rw [getNeighbors, Finset.mem_filter]
      exact ⟨hbS, Ne.symm hab, hedge⟩
    have hrb : Reach G S u b :=
      Relation.ReflTransGen.tail (mem_componentOf_reach G S (huC ▸ ha)) hadj
    have hbC : b ∈ componentOf G S u := reach_mem_componentOf G S hu hrb
    exact hne (huC ▸ hvD ▸
      componentOf_eq_of_mem G S hu hv hbC (hvD ▸ hb))
  exact ⟨fun h => key True (Or.inl h), fun h => key True (Or.inr h)⟩

/-- Xor of Grundy values over a family of pairwise disjoint, pairwise
edge-separated node sets equals the Grundy value of their union. -/
lemma grundy_biUnion_xor (G : Graph) (P : Finset (Finset ℕ)) :
    (∀ C ∈ P, ∀ D ∈ P, C ≠ D → Disjoint C D) →
    (∀ C ∈ P, ∀ D ∈ P, C ≠ D →
      ∀ a ∈ C, ∀ b ∈ D, (a, b) ∉ G.edges ∧ (b, a) ∉ G.edges) →
    grundy G (P.biUnion id) = P.fold (fun a b : ℕ => a ^^^ b) 0 (fun C => grundy G C) := by
  induction P using Finset.induction_on with
  | empty =>
    intro _ _
    simp [grundy_empty]
  | @insert C P hCP ih =>
    intro hdisj hsep
    rw [Finset.biUnion_insert, Finset.fold_insert hCP]
    have hCne : ∀ D ∈ P, C ≠ D := by
      intro D hD h
      exact hCP (h ▸ hD)
    have hd : Disjoint C (P.biUnion id) := by
      rw [Finset.disjoint_biUnion_right]
      intro D hD
      exact hdisj C (Finset.mem_insert_self C P) D (Finset.mem_insert_of_mem hD)
        (hCne D hD)
    have hs : ∀ a ∈ C, ∀ b ∈ P.biUnion id,
        (a, b) ∉ G.edges ∧ (b, a) ∉ G.edges := by
      intro a ha b hb
      obtain ⟨D, hD, hbD⟩ := Finset.mem_biUnion.mp hb
      exact hsep C (Finset.mem_insert_self C P) D (Finset.mem_insert_of_mem hD)
        (hCne D hD) a ha b hbD
    rw [show (id C : Finset ℕ) = C from rfl]
    rw [grundy_union_xor G (C ∪ P.biUnion id).card C (P.biUnion id) rfl hd hs]
    rw [ih (fun C2 hC2 D hD hne => hdisj C2 (Finset.mem_insert_of_mem hC2)
          D (Finset.mem_insert_of_mem hD) hne)
        (fun C2 hC2 D hD hne => hsep C2 (Finset.mem_insert_of_mem hC2)
          D (Finset.mem_insert_of_mem hD) hne)]

/-- Disjoint-sum law in its component form: the Grundy value of any state is
the xor of the Grundy values of its connected components. -/
lemma grundy_eq_fold_components (G : Graph) (S : Finset ℕ) :
    grundy G S
      = (components G S).fold (fun a b : ℕ => a ^^^ b) 0 (fun C => grundy G C) := by
  conv_lhs => rw [← biUnion_components G S]
  exact grundy_biUnion_xor G (components G S)
    (fun C hC D hD hne => components_disjoint G S hC hD hne)
    (fun C hC D hD hne => components_no_cross_edges G S hC hD hne)

lemma grundy_inducedSubgraph (G : Graph) (C : Finset ℕ) :
    grundy (inducedSubgraph G C) C = grundy G C :=
  grundy_congr (inducedSubgraph G C) G C.card C rfl
    (fun a b ha hb => by simp [inducedSubgraph, ha, hb])

lemma analyzeWithXor_eq_grundy (G : Graph) :
    analyzeWithXor G = grundy G G.nodes := by
  unfold analyzeWithXor
  rw [Finset.fold_congr (fun C _ => grundy_inducedSubgraph G C)]
  exact (grundy_eq_fold_components G G.nodes).symm

lemma mem_searched_self (G : Graph) {S : Finset ℕ} (hS : S.Nonempty) :
    S ∈ searched G S := by
  obtain ⟨m, hm⟩ : ∃ m, S.card = m + 1 :=
    ⟨S.card - 1, by have := Finset.card_pos.mpr hS; omega⟩
  have hne : S ≠ ∅ := Finset.nonempty_iff_ne_empty.mp hS
  rw [searched, hm]
  simp [searchedAux, hne]

/-- C1: the Grundy evaluator equals the reference Sprague-Grundy recursion:
the empty state has Grundy number 0, and every nonempty state has the
minimum excludant of the Grundy values of its successor states
`applyMove S n = S - {n} - neighbors of n within S`, one per node `n ∈ S`. -/
theorem grundy_matches_reference_recursion :
    ∀ G : Graph, grundy G ∅ = 0 ∧
      ∀ S : Finset ℕ, S.Nonempty →
        grundy G S = mex (S.image (fun n => grundy G (applyMove G S n))) :=
  fun G => ⟨grundy_empty G, fun _ hS => grundy_spec G hS⟩

theorem grundy_matches_reference_recursion_witness :
    (({0, 1} : Finset ℕ).Nonempty) ∧
      grundy singleEdgeGraph {0, 1}
        = mex (({0, 1} : Finset ℕ).image
            (fun n => grundy singleEdgeGraph (applyMove singleEdgeGraph {0, 1} n))) :=
  ⟨by decide, (grundy_matches_reference_recursion singleEdgeGraph).2 {0, 1} (by decide)⟩

/-- C2: disjoint-sum law: the Grundy value of every state is the xor of the
Grundy values of its connected components, and `analyze_with_xor` returns
the same value as running the evaluator on the whole graph. -/
theorem grundy_disjoint_sum_law :
    (∀ (G : Graph) (S : Finset ℕ),
      grundy G S
        = (components G S).fold (fun a b : ℕ => a ^^^ b) 0 (fun C => grundy G C)) ∧
    (∀ G : Graph, analyzeWithXor G = grundy G G.nodes) :=
  ⟨grundy_eq_fold_components, analyzeWithXor_eq_grundy⟩

set_option maxHeartbeats 4000000 in
/-- C3 counterexample: the evaluator has no decomposition fast path.  On the
two-disjoint-edges graph the full state has two connected components, yet
the source evaluator runs its generic mex search on that whole state,
whereas the fast-path evaluation described by the spec never generically
searches a multi-component state. -/
theorem no_decomposition_fast_path_counterexample :
    2 ≤ (components twoEdgesGraph {0, 1, 2, 3}).card ∧
    ({0, 1, 2, 3} : Finset ℕ) ∈ searched twoEdgesGraph {0, 1, 2, 3} ∧
    ({0, 1, 2, 3} : Finset ℕ) ∉ searchedSpec twoEdgesGraph {0, 1, 2, 3} := by
  decide

/-- C3 amended: the evaluator runs the generic mex search over all moves on
every nonempty state it visits, including states with several connected
components — there is no decomposition fast path in `grundy`; by the
disjoint-sum law its values nevertheless equal the xor over components. -/
theorem grundy_generic_search_on_every_state :
    ∀ (G : Graph) (S : Finset ℕ), S.Nonempty →
      S ∈ searched G S ∧
      grundy G S = mex (S.image (fun n => grundy G (applyMove G S n))) ∧
      grundy G S
        = (components G S).fold (fun a b : ℕ => a ^^^ b) 0 (fun C => grundy G C) :=
  fun G S hS => ⟨mem_searched_self G hS, grundy_spec G hS,
    grundy_eq_fold_components G S⟩

set_option maxHeartbeats 4000000 in
theorem grundy_generic_search_on_every_state_witness :
    (({0, 1, 2, 3} : Finset ℕ).Nonempty) ∧
      ({0, 1, 2, 3} : Finset ℕ) ∈ searched twoEdgesGraph {0, 1, 2, 3} :=
  ⟨by decide,
   (grundy_generic_search_on_every_state twoEdgesGraph {0, 1, 2, 3} (by decide)).1⟩

/-- C4: the winning-move enumerator returns the empty set exactly on
Grundy-0 states; on a state of nonzero Grundy value it returns a nonempty
set, and each returned node lies in the state and moves to a Grundy-0
successor. -/
theorem getWinningMoves_correct :
    ∀ (G : Graph) (S : Finset ℕ),
      (getWinningMoves G S = ∅ ↔ grundy G S = 0) ∧
      (grundy G S ≠ 0 → (getWinningMoves G S).Nonempty) ∧
      (∀ n ∈ getWinningMoves G S, n ∈ S ∧ grundy G (applyMove G S n) = 0) := by
  intro G S
  by_cases hg : grundy G S = 0
  · simp [getWinningMoves, hg]
  · have hS : S.Nonempty := by
      by_contra h
      rw [Finset.not_nonempty_iff_eq_empty] at h
      exact hg (h ▸ grundy_empty G)
    have h0 : 0 ∈ S.image (fun n => grundy G (applyMove G S n)) := by
      apply mem_of_lt_mex
      rw [← grundy_spec G hS]
      exact Nat.pos_of_ne_zero hg
    obtain ⟨n0, hn0, hg0⟩ := Finset.mem_image.mp h0
    have hmem : n0 ∈ getWinningMoves G S := by
      simp only [getWinningMoves, hg, if_false, Finset.mem_filter]
      exact ⟨hn0, hg0⟩
    refine ⟨⟨fun hempty => absurd (hempty ▸ hmem) (Finset.not_mem_empty n0),
            fun h => absurd h hg⟩,
           fun _ => ⟨n0, hmem⟩, ?_⟩
    intro n hn
    simp only [getWinningMoves, hg, if_false, Finset.mem_filter] at hn
    exact hn

theorem getWinningMoves_correct_witness :
    (grundy singleEdgeGraph {0, 1} ≠ 0) ∧
      (getWinningMoves singleEdgeGraph {0, 1}).Nonempty :=
  ⟨by decide, (getWinningMoves_correct singleEdgeGraph {0, 1}).2.1 (by decide)⟩

/-- C5: the interactive game loop transition and the evaluator successor
computation agree: for a state inside the graph node set and a node of the
state, removing the node and its neighbors from the subgraph induced on the
state succeeds and leaves exactly the node set `S - {n} - neighbors of n
within S` used by `_get_next_states` and `get_winning_moves`. -/
theorem game_loop_matches_evaluator_transition :
    ∀ (G : Graph) (S : Finset ℕ) (n : ℕ), S ⊆ G.nodes → n ∈ S →
      (removeNodeAndNeighbors (inducedSubgraph G S) n).1 = true ∧
      ((removeNodeAndNeighbors (inducedSubgraph G S) n).2).nodes
        = applyMove G S n := by
  intro G S n hSG hn
  have hnodes : (inducedSubgraph G S).nodes = S := by
    simp only [inducedSubgraph]
    exact Finset.inter_eq_right.mpr hSG
  have hmem : n ∈ (inducedSubgraph G S).nodes := by
    rw [hnodes]; exact hn
  constructor
  · simp [removeNodeAndNeighbors, hmem]
  · simp only [removeNodeAndNeighbors, hmem, if_true]
    rw [hnodes]
    ext x
    have hxG : x ∈ S → x ∈ G.nodes := fun h => hSG h
    simp only [applyMove, getNeighbors, graphNeighbors, inducedSubgraph,
      Finset.mem_sdiff, Finset.mem_insert, Finset.mem_filter,
      Finset.mem_inter, Finset.mem_singleton]
    tauto

theorem game_loop_matches_evaluator_transition_witness :
    (({0, 1} : Finset ℕ) ⊆ singleEdgeGraph.nodes ∧ 0 ∈ ({0, 1} : Finset ℕ)) ∧
      ((removeNodeAndNeighbors (inducedSubgraph singleEdgeGraph {0, 1}) 0).2).nodes
        = applyMove singleEdgeGraph {0, 1} 0 :=
  ⟨⟨by decide, by decide⟩,
   (game_loop_matches_evaluator_transition singleEdgeGraph {0, 1} 0
      (by decide) (by decide)).2⟩

/-- C6 counterexample: the evaluator does not reject a state containing a
node outside the underlying graph: on the single-edge graph with the foreign
node 5 in the state, it computes the Grundy number 0 instead of raising any
invalid-state condition (the source has no validation path at all). -/
theorem no_invalid_state_rejection_counterexample :
    5 ∉ singleEdgeGraph.nodes ∧
    getNeighbors singleEdgeGraph 5 {0, 5} = ∅ ∧
    grundy singleEdgeGraph {0, 5} = 0 := by
  decide

/-- C6 amended: the evaluator performs no state validation; a query state
containing a node outside the graph is evaluated normally, the foreign node
acting as an isolated node: provided stored edges join graph nodes, its
neighbor set within any state is empty and its move removes only itself. -/
theorem foreign_node_treated_as_isolated :
    ∀ (G : Graph) (S : Finset ℕ) (v : ℕ),
      (∀ e ∈ G.edges, e.1 ∈ G.nodes ∧ e.2 ∈ G.nodes) →
      v ∈ S → v ∉ G.nodes →
      getNeighbors G v S = ∅ ∧ applyMove G S v = S.erase v := by
  intro G S v hwf _ hvG
  have hnb : getNeighbors G v S = ∅ := by
    rw [getNeighbors, Finset.filter_eq_empty_iff]
    rintro m _ ⟨-, he | he⟩
    · exact hvG (hwf _ he).1
    · exact hvG (hwf _ he).2
  refine ⟨hnb, ?_⟩
  rw [applyMove, hnb, Finset.sdiff_empty, Finset.sdiff_singleton_eq_erase]

theorem foreign_node_treated_as_isolated_witness :
    ((∀ e ∈ singleEdgeGraph.edges,
        e.1 ∈ singleEdgeGraph.nodes ∧ e.2 ∈ singleEdgeGraph.nodes) ∧
      5 ∈ ({0, 5} : Finset ℕ) ∧ 5 ∉ singleEdgeGraph.nodes) ∧
      getNeighbors singleEdgeGraph 5 {0, 5} = ∅ :=
  ⟨⟨by decide, by decide, by decide⟩,
   (foreign_node_treated_as_isolated singleEdgeGraph {0, 5} 5
      (by decide) (by decide) (by decide)).1⟩

/-- C7: the move transition on a node absent from the graph state reports
failure and leaves the graph unchanged, and on a node present in the state
it reports success. -/
theorem removeNodeAndNeighbors_validates_move :
    ∀ (H : Graph) (n : ℕ),
      (n ∉ H.nodes → removeNodeAndNeighbors H n = (false, H)) ∧
      (n ∈ H.nodes → (removeNodeAndNeighbors H n).1 = true) := by
  intro H n
  constructor
  · intro h
    simp [removeNodeAndNeighbors, h]
  · intro h
    simp [removeNodeAndNeighbors, h]

theorem removeNodeAndNeighbors_validates_move_witness :
    removeNodeAndNeighbors singleEdgeGraph 7 = (false, singleEdgeGraph) ∧
      (removeNodeAndNeighbors singleEdgeGraph 0).1 = true :=
  ⟨(removeNodeAndNeighbors_validates_move singleEdgeGraph 7).1 (by decide),
   (removeNodeAndNeighbors_validates_move singleEdgeGraph 0).2 (by decide)⟩

/-- C8: every move strictly shrinks the state, and consequently the Grundy
recursion terminates with depth bounded by the state size: any recursion
budget of at least the state size computes the evaluator value. -/
theorem moves_shrink_and_recursion_depth_bounded :
    ∀ (G : Graph) (S : Finset ℕ),
      (∀ n ∈ S, (applyMove G S n).card < S.card) ∧
      (∀ fuel, S.card ≤ fuel → grundyAux G fuel S = grundy G S) :=
  fun G S => ⟨fun _ hn => applyMove_card_lt G hn,
    fun fuel h => grundyAux_congr G fuel S.card S h (le_refl _)⟩

theorem moves_shrink_and_recursion_depth_bounded_witness :
    (0 ∈ ({0, 1, 2, 3} : Finset ℕ) ∧ ({0, 1, 2, 3} : Finset ℕ).card ≤ 9) ∧
      (applyMove twoEdgesGraph {0, 1, 2, 3} 0).card < ({0, 1, 2, 3} : Finset ℕ).card ∧
      grundyAux twoEdgesGraph 9 {0, 1, 2, 3} = grundy twoEdgesGraph {0, 1, 2, 3} :=
  ⟨⟨by decide, by decide⟩,
   (moves_shrink_and_recursion_depth_bounded twoEdgesGraph {0, 1, 2, 3}).1 0 (by decide),
   (moves_shrink_and_recursion_depth_bounded twoEdgesGraph {0, 1, 2, 3}).2 9 (by decide)⟩

/-- C9: reference Grundy values on path graphs: P0 has value 0, P1 value 1,
P2 value 1, P3 value 2 and P4 value 0. -/
theorem path_graph_reference_values :
    getPathGrundy 0 = 0 ∧ getPathGrundy 1 = 1 ∧ getPathGrundy 2 = 1 ∧
    getPathGrundy 3 = 2 ∧ getPathGrundy 4 = 0 := by
  decide

/-- C10: the neighbor resolver is irreflexive and, for nodes of the state,
symmetric regardless of the orientation in which each edge is stored. -/
theorem getNeighbors_irreflexive_symmetric :
    ∀ (G : Graph) (S : Finset ℕ) (m n : ℕ), m ∈ S → n ∈ S →
      n ∉ getNeighbors G n S ∧
      (m ∈ getNeighbors G n S ↔ n ∈ getNeighbors G m S) := by
  intro G S m n hm hn
  refine ⟨by simp [getNeighbors], ?_⟩
  simp only [getNeighbors, Finset.mem_filter]
  constructor
  · rintro ⟨-, hne, he⟩
    exact ⟨hn, Ne.symm hne, he.symm⟩
  · rintro ⟨-, hne, he⟩
    exact ⟨hm, Ne.symm hne, he.symm⟩

theorem getNeighbors_irreflexive_symmetric_witness :
    (0 ∈ ({0, 1} : Finset ℕ) ∧ 1 ∈ ({0, 1} : Finset ℕ)) ∧
      1 ∉ getNeighbors singleEdgeGraph 1 {0, 1} ∧
      (0 ∈ getNeighbors singleEdgeGraph 1 {0, 1} ↔
        1 ∈ getNeighbors singleEdgeGraph 0 {0, 1}) :=
  ⟨⟨by decide, by decide⟩,
   getNeighbors_irreflexive_symmetric singleEdgeGraph {0, 1} 0 1 (by decide) (by decide)⟩

end NodeKayles

